import Mathlib

/-!
Verification of the MatrixedMind notes service core against its source
(`src/app/storage.py`, `src/app/main.py`).

Python strings are modelled as `List Char`; each Python string operation
used by the source (`strip`, `split`, `splitlines`, slicing, substring
containment, regex character-class substitution) is embedded as an explicit
Lean function with Python's semantics.  Machine integers do not occur; the
only floating-point expressions in the source are `int(char_limit * 0.2)`
and `int(char_limit * 0.4)`, which for every natural `char_limit` evaluate
in IEEE-754 double arithmetic to `char_limit / 5` and `2 * char_limit / 5`
respectively (the double nearest 0.2 is `(2^54 + 1) / (5 * 2^54)`, so the
product is `(n/5) * (1 + 2^-54)`, which rounds back to the exact value and
truncates to the floor); they are embedded as those natural-number
divisions.
-/

/-- Python strings, modelled as lists of characters. -/
abbrev Str := List Char

/-- Convert a Lean string literal to the `Str` model. -/
def toL (s : String) : Str := s.toList

/-- The characters Python's `str.split()` / `str.strip()` treat as
whitespace (the `str.isspace` set). -/
def pySpace (c : Char) : Bool :=
  decide (c.toNat ∈ [9, 10, 11, 12, 13, 28, 29, 30, 31, 32, 133, 160, 0x1680,
    0x2000, 0x2001, 0x2002, 0x2003, 0x2004, 0x2005, 0x2006, 0x2007, 0x2008,
    0x2009, 0x200A, 0x2028, 0x2029, 0x202F, 0x205F, 0x3000])

/-- Python `s.lstrip()`. -/
def pyLstrip (l : Str) : Str := l.dropWhile pySpace

/-- Python `s.rstrip()`. -/
def pyRstrip (l : Str) : Str := (l.reverse.dropWhile pySpace).reverse

/-- Python `s.strip()`. -/
def pyStrip (l : Str) : Str := pyRstrip (pyLstrip l)

/-- Python `s.split()` with no argument: the maximal runs of
non-whitespace characters, in order (`acc` holds the reversed current
word). -/
def pyWordsAux : Str → Str → List Str
  | [], acc => if acc = [] then [] else [acc.reverse]
  | c :: cs, acc =>
    if pySpace c then
      (if acc = [] then pyWordsAux cs [] else acc.reverse :: pyWordsAux cs [])
    else pyWordsAux cs (c :: acc)

def pyWords (l : Str) : List Str := pyWordsAux l []

/-- Python `"_".join(ws)`. -/
def joinUnderscore : List Str → Str
  | [] => []
  | [w] => w
  | w :: ws => w ++ '_' :: joinUnderscore ws

/-- The character class of the regex `[/\\:*?"<>|\.]` in `sanitize`
(path separators, shell/glob metacharacters, and the dot). -/
def problematic (c : Char) : Bool :=
  decide (c ∈ ['/', '\\', ':', '*', '?', Char.ofNat 34, '<', '>', '|', '.'])

/-- The keep-predicate of the control-character filter in `sanitize`:
`ord(char) >= 32 and ord(char) != 127`. -/
def keepChar (c : Char) : Bool := decide (32 ≤ c.toNat ∧ c.toNat ≠ 127)

/-- Python `s.strip("_")`. -/
def stripUnderscores (l : Str) : Str :=
  ((l.dropWhile (fun c => c == '_')).reverse.dropWhile (fun c => c == '_')).reverse

/-- `storage.sanitize` (src/app/storage.py lines 15-48): strip outer
whitespace, collapse inner whitespace runs to single underscores, drop
control characters, replace the problematic character class by
underscores, strip outer underscores, and fall back to `"unnamed"` when
nothing is left. -/
def sanitize (segment : Str) : Str :=
  let s1 := pyStrip segment
  let s2 := joinUnderscore (pyWords s1)
  let s3 := s2.filter keepChar
  let s4 := s3.map (fun c => if problematic c then '_' else c)
  let s5 := stripUnderscores s4
  if s5 = [] then toL "unnamed" else s5

/-! ### `main._truncate_content` (src/app/main.py lines 28-109) -/

/-- The write mode of a note request. -/
inductive WriteMode
  | replace
  | append
deriving DecidableEq

/-- Python slicing `l[-n:]`: for `n = 0` this is the whole string
(`l[-0:]` is `l[0:]`), otherwise the last `min n (len l)` characters. -/
def pySliceNegFrom (n : Nat) (l : Str) : Str :=
  if n = 0 then l else l.drop (l.length - n)

/-- Truncation indicator constants from src/app/main.py lines 29-31. -/
def truncEllipsis : Str := toL "\n...\n"

def truncExisting : Str := toL "...(existing)\n"

def truncNewEntry : Str := toL "\n...(new entry)\n"

/-- `main._truncate_content`.  `int(char_limit * 0.2)` and
`int(char_limit * 0.4)` are embedded as `char_limit / 5` and
`2 * char_limit / 5` (see the header comment on the float embedding);
Python's truthiness test `if existing_content:` is false for both `None`
and the empty string. -/
def _truncate_content (content : Str) (mode : WriteMode)
    (existing_content : Option Str) (char_limit : Nat) : Str :=
  if content.length ≤ char_limit then content
  else if mode = WriteMode.replace then
    content.take (char_limit / 2) ++ truncEllipsis ++
      pySliceNegFrom (char_limit / 2) content
  else
    match existing_content with
    | some ex =>
      if ex = [] then
        content.take (char_limit / 2) ++ truncEllipsis ++
          pySliceNegFrom (char_limit / 2) content
      else
        let existing_stripped := pyRstrip ex
        let start_pos := existing_stripped.length
        let new_content := content.drop start_pos
        let existing_chars := char_limit / 5
        let new_first_chars := 2 * char_limit / 5
        let new_last_chars := 2 * char_limit / 5
        let truncated_existing :=
          if existing_chars < ex.length then pySliceNegFrom existing_chars ex
          else ex
        let pfx := if existing_chars < ex.length then truncExisting else []
        if new_content.length ≤ new_first_chars + new_last_chars then
          pfx ++ truncated_existing ++ new_content
        else
          pfx ++ truncated_existing ++ truncNewEntry ++
            new_content.take new_first_chars ++ truncEllipsis ++
            pySliceNegFrom new_last_chars new_content
    | none =>
      content.take (char_limit / 2) ++ truncEllipsis ++
        pySliceNegFrom (char_limit / 2) content

/-- The last `n` characters of a string in the spec sense:
`content[len(content)-n:]` with a natural-number index. -/
def lastChars (n : Nat) (l : Str) : Str := l.drop (l.length - n)

/-- The replace-mode preview exactly as the spec words it:
`content[0:limit/2] + "\n...\n" + content[len(content)-limit/2:]`. -/
def specReplacePreview (content : Str) (limit : Nat) : Str :=
  content.take (limit / 2) ++ truncEllipsis ++ lastChars (limit / 2) content

/-- The append-mode preview exactly as the spec words it: the last
`int(0.2*limit)` characters of the existing content (the `...(existing)`
marker in front exactly when the existing content was truncated), then
the new material, whole if it fits `int(0.4*limit)+int(0.4*limit)`
characters, otherwise the `...(new entry)` marker, its first
`int(0.4*limit)` characters, the ellipsis, and its last `int(0.4*limit)`
characters. -/
def specAppendPreview (content ex : Str) (limit : Nat) : Str :=
  let new_content := content.drop (pyRstrip ex).length
  let existing_chars := limit / 5
  let new_chars := 2 * limit / 5
  let pfx := if existing_chars < ex.length then truncExisting else []
  pfx ++ lastChars existing_chars ex ++
    (if new_content.length ≤ new_chars + new_chars then new_content
     else truncNewEntry ++ new_content.take new_chars ++ truncEllipsis ++
       lastChars new_chars new_content)

/-! ### The blob store and the index maintenance of `storage.py`

The store is modelled as an association list from keys to text contents
(both `Str`).  The claims C1, C4 and C5 are about single-threaded runs of
the index maintenance, so the generation-token machinery of the source
collapses: between the `reload()` that captures a blob's generation and
the conditional `upload_from_string(..., if_generation_match=generation)`
no concurrent writer intervenes, hence a conditional write on a captured
generation always succeeds, a create (`if_generation_match=0`) succeeds
exactly when the key is absent, and `_retry_on_conflict` calls its
function exactly once (no `PreconditionFailed` escapes it).  The
`generation is None` / mid-read `NotFound` branches of the source are
unreachable sequentially and are modelled as the no-ops they return. -/

abbrev Store := List (Str × Str)

/-- Look a key up in the store. -/
def lookupS : Store → Str → Option Str
  | [], _ => none
  | (k2, v) :: rest, k => if k2 = k then some v else lookupS rest k

/-- Write a key (replace in place, or append a new entry). -/
def setS : Store → Str → Str → Store
  | [], k, v => [(k, v)]
  | (k2, v2) :: rest, k, v =>
    if k2 = k then (k, v) :: rest else (k2, v2) :: setS rest k v

/-- The characters Python's `str.splitlines()` treats as line
boundaries. -/
def lineBoundary (c : Char) : Bool :=
  decide (c.toNat ∈ [10, 11, 12, 13, 28, 29, 30, 133, 0x2028, 0x2029])

/-- Python `str.splitlines()`, one character at a time: `skip` records
that the previous character was a `\r` whose following `\n` must not
open a new line, `acc` holds the reversed current line. -/
def slAux : Bool → Str → Str → List Str
  | _, [], acc => if acc = [] then [] else [acc.reverse]
  | skip, c :: cs, acc =>
    if skip = true ∧ c = '\n' then slAux false cs acc
    else if lineBoundary c then
      acc.reverse :: slAux (decide (c = '\r')) cs []
    else slAux false cs (c :: acc)

def pySplitlines (l : Str) : List Str := slAux false l []

/-- Python `s.split("/")` (empty parts kept), with a reversed-segment
accumulator. -/
def pySplitSlashAux : Str → Str → List Str
  | [], acc => [acc.reverse]
  | c :: cs, acc =>
    if c = '/' then acc.reverse :: pySplitSlashAux cs []
    else pySplitSlashAux cs (c :: acc)

def pySplitSlash (l : Str) : List Str := pySplitSlashAux l []

/-- `[part for part in section.split("/") if part]` — the non-empty
'/'-separated segments of a section path. -/
def pyParts (l : Str) : List Str := (pySplitSlash l).filter (fun w => !w.isEmpty)

/-- Python `"/".join(ps)`. -/
def joinSlash : List Str → Str
  | [] => []
  | [w] => w
  | w :: ws => w ++ '/' :: joinSlash ws

/-- `f"- [[{name}]]"` — a link line without its newline. -/
def linkLine (name : Str) : Str := toL "- [[" ++ name ++ toL "]]"

/-- `storage._index_path(project)` (section `None`):
`notes/<sanitized project>/_index.md`. -/
def projIndexPath (project : Str) : Str :=
  toL "notes/" ++ sanitize project ++ toL "/_index.md"

/-- `storage._index_path(project, section)`:
`notes/<sanitized project>/<sanitized section path>/_index.md`, where the
section is split on `/`, empty parts dropped, and each part sanitized. -/
def _index_path (project : Str) (sec : Str) : Str :=
  toL "notes/" ++ sanitize project ++ '/' ::
    (joinSlash ((pyParts sec).map sanitize) ++ toL "/_index.md")

/-- Initial project-index content
`f"# {project}\n\nSections:\n- [[{top_level_section}]]\n"`. -/
def projInit (project top : Str) : Str :=
  toL "# " ++ project ++ toL "\n\nSections:\n" ++ linkLine top ++ ['\n']

/-- Initial intermediate-level content
`f"# {display_name}\n\nSubsections and notes:\n"`. -/
def midInit (name : Str) : Str :=
  toL "# " ++ name ++ toL "\n\nSubsections and notes:\n"

/-- Initial leaf-level content
`f"# {display_name}\n\nNotes in this section:\n"`. -/
def leafInit (name : Str) : Str :=
  toL "# " ++ name ++ toL "\n\nNotes in this section:\n"

/-- Initial leaf content written by `update_section_index` on creation:
`f"# {display_name}\n\nNotes in this section:\n- [[{title}]]\n"`. -/
def noteInit (name title : Str) : Str :=
  toL "# " ++ name ++ toL "\n\nNotes in this section:\n" ++
    linkLine title ++ ['\n']

/-- `blob.upload_from_string(content, if_generation_match=0)` with the
`PreconditionFailed` caught and ignored (storage.py lines 180-196):
create the blob if absent, otherwise leave the store unchanged. -/
def createIfAbsent (S : Store) (k v : Str) : Store :=
  match lookupS S k with
  | none => setS S k v
  | some _ => S

/-- `_update_subsection_index` (storage.py lines 202-231), sequentially:
if the blob is gone do nothing, otherwise append
`current.strip() + "\n" + link_line + "\n"` unless `link_line in current`
(substring containment). -/
def appendIfNoInfix (S : Store) (k link : Str) : Store :=
  match lookupS S k with
  | none => S
  | some cur =>
    if link <:+: cur then S
    else setS S k (pyStrip cur ++ '\n' :: (link ++ ['\n']))

/-- `_update_project_index` (storage.py lines 136-166), sequentially:
create with the initial content if absent, otherwise append the link line
unless `link_line in current` (substring containment). -/
def upsertProjIdx (S : Store) (k init link : Str) : Store :=
  match lookupS S k with
  | none => setS S k init
  | some cur =>
    if link <:+: cur then S
    else setS S k (pyStrip cur ++ '\n' :: (link ++ ['\n']))

/-- `update_section_index`'s `_update` (storage.py lines 242-271),
sequentially: create with the initial content if absent, otherwise append
the link line unless `link_line in current.splitlines()` (exact line
membership). -/
def upsertNoteIdx (S : Store) (k init link : Str) : Store :=
  match lookupS S k with
  | none => setS S k init
  | some cur =>
    if link ∈ pySplitlines cur then S
    else setS S k (pyStrip cur ++ '\n' :: (link ++ ['\n']))

/-- The per-level loop of `ensure_index_files` (storage.py lines
171-232): `rawAcc` is the list of raw section parts already processed, so
the current level's index path is `_index_path` of the '/'-join of
`rawAcc ++ [p]` (the source's `partial_section`).  Intermediate levels
are created with `midInit` and linked to the next part; the final level
is created with `leafInit`. -/
def ensureLoop (project : Str) : List Str → List Str → Store → Store
  | _, [], S => S
  | rawAcc, p :: rest2, S =>
    let path := _index_path project (joinSlash (rawAcc ++ [p]))
    let S1 := createIfAbsent S path
      (match rest2 with
       | [] => leafInit p
       | _ :: _ => midInit p)
    let S2 := match rest2 with
      | [] => S1
      | nxt :: _ => appendIfNoInfix S1 path (linkLine nxt)
    ensureLoop project (rawAcc ++ [p]) rest2 S2

/-- `storage.ensure_index_files` (lines 117-232), sequentially: no-op on
an empty section path, otherwise update the project index with the
top-level section and walk the levels. -/
def ensure_index_files (S : Store) (project sec : Str) : Store :=
  match pyParts sec with
  | [] => S
  | top :: rest =>
    ensureLoop project [] (top :: rest)
      (upsertProjIdx S (projIndexPath project) (projInit project top)
        (linkLine top))

/-- `storage.update_section_index` (lines 234-273), sequentially.  The
display name is the last section part, or the raw section string when
there are no parts; note there is no empty-section early return. -/
def update_section_index (S : Store) (project sec title : Str) : Store :=
  let parts := pyParts sec
  let disp := match parts.getLast? with
    | some d => d
    | none => sec
  upsertNoteIdx S (_index_path project sec) (noteInit disp title)
    (linkLine title)

/-- One full index maintenance pass as `main.create_or_update_note`
performs it: `ensure_index_files` followed by `update_section_index`. -/
def runOnce (S : Store) (project sec title : Str) : Store :=
  update_section_index (ensure_index_files S project sec) project sec title

/-! ### `storage._retry_on_conflict` (lines 98-115) -/

/-- The outcome of one attempt of the retried function: it returns, or
raises `NotFound`, `PreconditionFailed`, or some other exception. -/
inductive Attempt (α : Type)
  | ok (a : α)
  | notFound
  | precond
  | otherError

/-- What `_retry_on_conflict` does overall. -/
inductive RetryResult (α : Type)
  | ok (a : α)
  | raisedNotFound
  | raisedPrecond
  | raisedOther
  | fellThrough
deriving DecidableEq

/-- The sleep before attempt `i+1`: `time.sleep(0.1 * (2 ** attempt))`,
an exact doubling in IEEE-754 since `2 ** attempt` is a power of two;
recorded as the rational `(1/10) * 2^i`. -/
def sleepDelay (i : Nat) : ℚ := (1 / 10 : ℚ) * 2 ^ i

/-- `_retry_on_conflict`'s loop from attempt `i` with
`max_retries - i` iterations left: `f i` models what `func()` does on
the i-th full read-modify-write attempt.  Returns the list of sleeps
performed and the final outcome; `fellThrough` is the `return None`
after the loop, reached only when `max_retries = 0`. -/
def retryGo {α : Type} (f : Nat → Attempt α) (i : Nat) :
    Nat → List ℚ × RetryResult α
  | 0 => ([], RetryResult.fellThrough)
  | rem + 1 =>
    match f i with
    | Attempt.ok a => ([], RetryResult.ok a)
    | Attempt.notFound => ([], RetryResult.raisedNotFound)
    | Attempt.otherError => ([], RetryResult.raisedOther)
    | Attempt.precond =>
      match rem with
      | 0 => ([], RetryResult.raisedPrecond)
      | _ + 1 =>
        let p := retryGo f (i + 1) rem
        (sleepDelay i :: p.1, p.2)

/-- `storage._retry_on_conflict(func, max_retries)`. -/
def _retry_on_conflict {α : Type} (f : Nat → Attempt α)
    (max_retries : Nat) : List ℚ × RetryResult α :=
  retryGo f 0 max_retries

/-! ### Invariants for the index-maintenance claims -/

/-- The first and last characters of `lnk` exist and are non-whitespace,
so Python's `strip()` can never cut through an occurrence of `lnk`
(every `- [[...]]` link line qualifies: it starts with `-` and ends with
`]`). -/
def NonWsEnds (lnk : Str) : Prop :=
  lnk ≠ [] ∧ (∀ c, lnk.head? = some c → pySpace c = false) ∧
    (∀ c, lnk.getLast? = some c → pySpace c = false)

/-- `S2` keeps every document of `S`: a present key stays present and
every substring of its content with non-whitespace endpoints is still a
substring afterwards.  Every write the index maintenance performs is a
create-if-absent or a strip-and-append, so it keeps the store in this
sense. -/
def Keeps (S S2 : Store) : Prop :=
  ∀ k cur, lookupS S k = some cur →
    ∃ cur2, lookupS S2 k = some cur2 ∧
      ∀ lnk, NonWsEnds lnk → lnk <:+: cur → lnk <:+: cur2

/-- The index documents the remaining `ensure_index_files` loop
iterations would touch all exist, and each non-final level contains the
link line of its child (as a substring, which is what the code tests). -/
def LoopDone (project : Str) : List Str → List Str → Store → Prop
  | _, [], _ => True
  | rawAcc, p :: rest2, S =>
    (∃ cur, lookupS S (_index_path project (joinSlash (rawAcc ++ [p]))) =
        some cur ∧
      match rest2 with
      | [] => True
      | nxt :: _ => linkLine nxt <:+: cur) ∧
    LoopDone project (rawAcc ++ [p]) rest2 S

/-- Everything one `ensure_index_files` + `update_section_index` pass
checks before writing already holds, so the pass is a no-op. -/
def Done (project sec title : Str) (S : Store) : Prop :=
  (match pyParts sec with
   | [] => True
   | top :: _ =>
     ∃ cur, lookupS S (projIndexPath project) = some cur ∧
       linkLine top <:+: cur) ∧
  LoopDone project [] (pyParts sec) S ∧
  (∃ cur, lookupS S (_index_path project sec) = some cur ∧
    linkLine title ∈ pySplitlines cur)

/-! ### The index document format (claim C4) -/

/-- A link line with its newline. -/
def linkLF (x : Str) : Str := linkLine x ++ ['\n']

/-- The block of link lines of an index document. -/
def linksBlock (ls : List Str) : Str := (ls.map linkLF).flatten

/-- The shape every index document has: a `# <name>` header line, a
blank line, a section header line, then one `- [[...]]` line per link. -/
def tmpl (name hdr : Str) (ls : List Str) : Str :=
  toL "# " ++ name ++ toL "\n\n" ++ (hdr ++ '\n' :: linksBlock ls)

/-- The three section headers the code writes. -/
def IsHeader (h : Str) : Prop :=
  h = toL "Sections:" ∨ h = toL "Subsections and notes:" ∨
    h = toL "Notes in this section:"

/-- A well-formed index document. -/
def FormattedDoc (c : Str) : Prop :=
  ∃ name hdr ls, IsHeader hdr ∧ c = tmpl name hdr ls

/-- Every document in the store is a well-formed index document. -/
def AllFormatted (S : Store) : Prop := ∀ kv ∈ S, FormattedDoc kv.2

/-! ### Character-level facts about `sanitize` -/

theorem dropWhile_head_false {α : Type} {p : α → Bool} {l : List α} {c : α}
    {cs : List α} (h : l.dropWhile p = c :: cs) : p c = false := by
  induction l with
  | nil => cases h
  | cons a as ih =>
    rw [List.dropWhile_cons] at h
    by_cases hp : p a
    · rw [if_pos hp] at h; exact ih h
    · rw [if_neg hp] at h
      cases h
      simpa using hp

theorem mem_pyWordsAux :
    ∀ (l acc : Str), (∀ c ∈ acc, pySpace c = false) →
      ∀ w ∈ pyWordsAux l acc, ∀ c ∈ w, (c ∈ l ∨ c ∈ acc) ∧ pySpace c = false := by
  intro l
  induction l with
  | nil =>
    intro acc hacc w hw c hc
    simp only [pyWordsAux] at hw
    by_cases ha : acc = []
    · rw [if_pos ha] at hw; simp at hw
    · rw [if_neg ha] at hw
      rcases List.mem_singleton.mp hw with rfl
      have hc2 : c ∈ acc := List.mem_reverse.mp hc
      exact ⟨Or.inr hc2, hacc c hc2⟩
  | cons a as ih =>
    intro acc hacc w hw c hc
    simp only [pyWordsAux] at hw
    by_cases hsp : pySpace a
    · rw [if_pos hsp] at hw
      by_cases ha : acc = []
      · rw [if_pos ha] at hw
        obtain ⟨hcl, hcs⟩ := ih [] (by simp) w hw c hc
        rcases hcl with hcl | hcl
        · exact ⟨Or.inl (List.mem_cons_of_mem _ hcl), hcs⟩
        · simp at hcl
      · rw [if_neg ha] at hw
        rcases List.mem_cons.mp hw with rfl | hw2
        · have hc2 : c ∈ acc := List.mem_reverse.mp hc
          exact ⟨Or.inr hc2, hacc c hc2⟩
        · obtain ⟨hcl, hcs⟩ := ih [] (by simp) w hw2 c hc
          rcases hcl with hcl | hcl
          · exact ⟨Or.inl (List.mem_cons_of_mem _ hcl), hcs⟩
          · simp at hcl
    · rw [if_neg hsp] at hw
      have hacc2 : ∀ d ∈ a :: acc, pySpace d = false := by
        intro d hd
        rcases List.mem_cons.mp hd with rfl | hd2
        · simpa using hsp
        · exact hacc d hd2
      obtain ⟨hcl, hcs⟩ := ih (a :: acc) hacc2 w hw c hc
      rcases hcl with hcl | hcl
      · exact ⟨Or.inl (List.mem_cons_of_mem _ hcl), hcs⟩
      · rcases List.mem_cons.mp hcl with rfl | hcl2
        · exact ⟨Or.inl (List.mem_cons_self _ _), hcs⟩
        · exact ⟨Or.inr hcl2, hcs⟩

theorem mem_pyWords_props (l : Str) :
    ∀ w ∈ pyWords l, ∀ c ∈ w, c ∈ l ∧ pySpace c = false := by
  intro w hw c hc
  obtain ⟨hcl, hcs⟩ := mem_pyWordsAux l [] (by simp) w hw c hc
  rcases hcl with hcl | hcl
  · exact ⟨hcl, hcs⟩
  · simp at hcl

theorem pyWordsAux_all_nonspace :
    ∀ (l acc : Str), (∀ c ∈ l, pySpace c = false) →
      pyWordsAux l acc =
        if acc.reverse ++ l = [] then [] else [acc.reverse ++ l] := by
  intro l
  induction l with
  | nil =>
    intro acc _
    simp only [pyWordsAux, List.append_nil]
    by_cases ha : acc = []
    · simp [ha]
    · rw [if_neg ha, if_neg (by simp [ha])]
  | cons a as ih =>
    intro acc hl
    have hsp : pySpace a = false := hl a (List.mem_cons_self _ _)
    simp only [pyWordsAux, hsp]
    rw [if_neg (by simp)]
    rw [ih (a :: acc) (fun c hc => hl c (List.mem_cons_of_mem _ hc))]
    rw [if_neg (by simp)]
    simp

theorem pyWords_all_nonspace {l : Str} (h0 : l ≠ [])
    (h : ∀ c ∈ l, pySpace c = false) : pyWords l = [l] := by
  unfold pyWords
  rw [pyWordsAux_all_nonspace l [] h]
  simp [h0]

theorem mem_joinUnderscore :
    ∀ (ws : List Str) (c : Char), c ∈ joinUnderscore ws →
      c = '_' ∨ ∃ w ∈ ws, c ∈ w := by
  intro ws
  induction ws with
  | nil => intro c hc; simp [joinUnderscore] at hc
  | cons w ws ih =>
    intro c hc
    cases ws with
    | nil =>
      simp only [joinUnderscore] at hc
      exact Or.inr ⟨w, List.mem_singleton_self w, hc⟩
    | cons w2 ws2 =>
      simp only [joinUnderscore] at hc
      rcases List.mem_append.mp hc with h1 | h2
      · exact Or.inr ⟨w, List.mem_cons_self _ _, h1⟩
      · rcases List.mem_cons.mp h2 with h3 | h4
        · exact Or.inl h3
        · rcases ih c h4 with h5 | ⟨w3, hw3, hc3⟩
          · exact Or.inl h5
          · exact Or.inr ⟨w3, List.mem_cons_of_mem _ hw3, hc3⟩

theorem mem_stripUnderscores {l : Str} {c : Char} (h : c ∈ stripUnderscores l) :
    c ∈ l := by
  unfold stripUnderscores at h
  have h1 := List.mem_reverse.mp h
  have h2 := (List.dropWhile_sublist _).subset h1
  have h3 := List.mem_reverse.mp h2
  exact (List.dropWhile_sublist _).subset h3

theorem mem_pyStrip {l : Str} {c : Char} (h : c ∈ pyStrip l) : c ∈ l := by
  unfold pyStrip pyRstrip pyLstrip at h
  have h1 := List.mem_reverse.mp h
  have h2 := (List.dropWhile_sublist _).subset h1
  have h3 := List.mem_reverse.mp h2
  exact (List.dropWhile_sublist _).subset h3

/-- Every character of `sanitize s` is an underscore, a character of `s`,
or a character of the fallback `"unnamed"`. -/
theorem mem_sanitize_cases {s : Str} {c : Char} (h : c ∈ sanitize s) :
    c = '_' ∨ c ∈ s ∨ c ∈ toL "unnamed" := by
  unfold sanitize at h
  by_cases h5 : stripUnderscores ((joinUnderscore (pyWords (pyStrip s))).filter keepChar |>.map
      (fun c => if problematic c then '_' else c)) = []
  · rw [if_pos h5] at h
    exact Or.inr (Or.inr h)
  · rw [if_neg h5] at h
    have h1 := mem_stripUnderscores h
    rcases List.mem_map.mp h1 with ⟨d, hd, hdc⟩
    by_cases hp : problematic d
    · rw [if_pos hp] at hdc; exact Or.inl hdc.symm
    · rw [if_neg hp] at hdc
      subst hdc
      have h2 := List.mem_of_mem_filter hd
      rcases mem_joinUnderscore _ _ h2 with h3 | ⟨w, hw, hcw⟩
      · exact Or.inl h3
      · exact Or.inr (Or.inl (mem_pyStrip (mem_pyWords_props _ w hw _ hcw).1))

/-- Every character of `sanitize s` is non-whitespace, survives the
control filter, and is not in the problematic class. -/
theorem sanitize_char_props {s : Str} {c : Char} (h : c ∈ sanitize s) :
    pySpace c = false ∧ keepChar c = true ∧ problematic c = false := by
  unfold sanitize at h
  by_cases h5 : stripUnderscores ((joinUnderscore (pyWords (pyStrip s))).filter keepChar |>.map
      (fun c => if problematic c then '_' else c)) = []
  · rw [if_pos h5] at h
    have hl : toL "unnamed" = ['u', 'n', 'n', 'a', 'm', 'e', 'd'] := by decide
    rw [hl] at h
    have h6 : c = 'u' ∨ c = 'n' ∨ c = 'n' ∨ c = 'a' ∨ c = 'm' ∨ c = 'e' ∨ c = 'd' := by
      simpa using h
    rcases h6 with h6 | h6 | h6 | h6 | h6 | h6 | h6 <;> subst h6 <;> decide
  · rw [if_neg h5] at h
    have h1 := mem_stripUnderscores h
    rcases List.mem_map.mp h1 with ⟨d, hd, hdc⟩
    have hd2 := List.mem_of_mem_filter hd
    have hdkeep : keepChar d = true := List.of_mem_filter hd
    have hdspace : pySpace d = false := by
      rcases mem_joinUnderscore _ _ hd2 with h3 | ⟨w, hw, hcw⟩
      · subst h3; decide
      · exact (mem_pyWords_props _ w hw _ hcw).2
    by_cases hp : problematic d
    · rw [if_pos hp] at hdc
      subst hdc
      decide
    · rw [if_neg hp] at hdc
      subst hdc
      exact ⟨hdspace, hdkeep, by simpa using hp⟩

theorem dropWhile_eq_self_of_all {α : Type} {p : α → Bool} {l : List α}
    (h : ∀ c ∈ l, p c = false) : l.dropWhile p = l := by
  cases l with
  | nil => rfl
  | cons c cs =>
    exact List.dropWhile_cons_of_neg (by simp [h c (List.mem_cons_self _ _)])

theorem dropWhile_eq_nil_of_all {α : Type} {p : α → Bool} {l : List α}
    (h : ∀ c ∈ l, p c = true) : l.dropWhile p = [] :=
  List.dropWhile_eq_nil_iff.mpr h

/-- When the first and last characters are not underscores, `strip("_")`
is the identity. -/
theorem stripUnderscores_eq_self {l : Str} (h1 : l.head? ≠ some '_')
    (h2 : l.getLast? ≠ some '_') : stripUnderscores l = l := by
  unfold stripUnderscores
  have hA : l.dropWhile (fun c => c == '_') = l := by
    cases l with
    | nil => rfl
    | cons c cs =>
      have hc : ¬((fun c => c == '_') c = true) := by
        simp only [List.head?_cons, ne_eq, Option.some.injEq] at h1
        simp [h1]
      exact List.dropWhile_cons_of_neg hc
  rw [hA]
  cases hrev : l.reverse with
  | nil =>
    have hnil : l = [] := by simpa using congrArg List.reverse hrev
    simp [hnil]
  | cons d ds =>
    have hd : d ≠ '_' := by
      have hh := List.head?_reverse l
      rw [hrev] at hh
      simp only [List.head?_cons] at hh
      intro hcon
      exact h2 (by rw [← hh, hcon])
    have hd2 : ¬((d == '_') = true) := by simp [hd]
    rw [List.dropWhile_cons, if_neg hd2, ← hrev, List.reverse_reverse]

/-- The head and last characters of a nonempty `strip("_")` result are
never underscores. -/
theorem stripUnderscores_head_last {l : Str} (h : stripUnderscores l ≠ []) :
    (stripUnderscores l).head? ≠ some '_' ∧
      (stripUnderscores l).getLast? ≠ some '_' := by
  unfold stripUnderscores at *
  set A := l.dropWhile (fun c => c == '_') with hA
  set B := A.reverse.dropWhile (fun c => c == '_') with hB
  have hBne : B ≠ [] := by
    intro hcon
    rw [hcon] at h
    simp at h
  constructor
  · rw [List.head?_reverse]
    obtain ⟨t, ht⟩ : B <:+ A.reverse := List.dropWhile_suffix _
    obtain ⟨x, hx⟩ : ∃ x, B.getLast? = some x := by
      cases hBl : B.getLast? with
      | none => exact absurd (List.getLast?_eq_none_iff.mp hBl) hBne
      | some x => exact ⟨x, rfl⟩
    have hlast : (A.reverse).getLast? = B.getLast? := by
      rw [← ht, List.getLast?_append, hx]
      rfl
    rw [← hlast, List.getLast?_reverse]
    have hAne : A ≠ [] := by
      intro hcon
      rw [hcon] at ht
      simp at ht
      exact hBne ht.2
    cases hAs : A with
    | nil => exact absurd hAs hAne
    | cons a as =>
      have ha0 : A.dropWhile (fun c => c == '_') = A := by
        rw [hA, List.dropWhile_idempotent]
      have ha1 : A.dropWhile (fun c => c == '_') = a :: as := by rw [ha0, hAs]
      have ha := dropWhile_head_false ha1
      rw [List.head?_cons]
      intro hcon
      simp only [Option.some.injEq] at hcon
      rw [hcon] at ha
      simp at ha
  · rw [List.getLast?_reverse]
    cases hBs : B with
    | nil => exact absurd hBs hBne
    | cons c cs =>
      have hc1 : A.reverse.dropWhile (fun c => c == '_') = c :: cs := by
        rw [← hB, hBs]
      have hc := dropWhile_head_false hc1
      rw [List.head?_cons]
      intro hcon
      simp only [Option.some.injEq] at hcon
      rw [hcon] at hc
      simp at hc

theorem sanitize_shape (s : Str) :
    sanitize s ≠ [] ∧ (sanitize s).head? ≠ some '_' ∧
      (sanitize s).getLast? ≠ some '_' := by
  unfold sanitize
  set s5 := stripUnderscores ((((joinUnderscore (pyWords (pyStrip s)))).filter
    keepChar).map (fun c => if problematic c then '_' else c)) with hs5
  by_cases h5 : s5 = []
  · simp only [if_pos h5]
    exact ⟨by decide, by decide, by decide⟩
  · simp only [if_neg h5]
    obtain ⟨hh, hl⟩ := stripUnderscores_head_last (hs5 ▸ h5)
    exact ⟨h5, hs5 ▸ hh, hs5 ▸ hl⟩

/-- A string that is nonempty, consists only of characters untouched by
every stage of `sanitize`, and has no underscore at either end, is a fixed
point of `sanitize`. -/
theorem sanitize_fixed {s : Str} (h0 : s ≠ [])
    (hchars : ∀ c ∈ s, pySpace c = false ∧ keepChar c = true ∧ problematic c = false)
    (hh : s.head? ≠ some '_') (hl : s.getLast? ≠ some '_') :
    sanitize s = s := by
  have hsp : ∀ c ∈ s, pySpace c = false := fun c hc => (hchars c hc).1
  have hlstrip : pyLstrip s = s := dropWhile_eq_self_of_all hsp
  have hrstrip : pyRstrip s = s := by
    unfold pyRstrip
    rw [dropWhile_eq_self_of_all (fun c hc => hsp c (List.mem_reverse.mp hc)),
      List.reverse_reverse]
  have hstrip : pyStrip s = s := by unfold pyStrip; rw [hlstrip, hrstrip]
  have hwords : pyWords s = [s] := pyWords_all_nonspace h0 hsp
  have hjoin : joinUnderscore [s] = s := rfl
  have hfilter : s.filter keepChar = s :=
    List.filter_eq_self.mpr (fun c hc => (hchars c hc).2.1)
  have hmap : s.map (fun c => if problematic c then '_' else c) = s := by
    have hcongr : s.map (fun c => if problematic c then '_' else c) = s.map id :=
      List.map_congr_left (fun c hc => by simp [(hchars c hc).2.2])
    rw [hcongr, List.map_id]
  have hstripu : stripUnderscores s = s := stripUnderscores_eq_self hh hl
  unfold sanitize
  simp only [hstrip, hwords, hjoin, hfilter, hmap, hstripu]
  rw [if_neg h0]

/-- C8: `sanitize` is total (a Lean function) and for every input its
output contains no `/` and no `\`, and is never empty. -/
theorem sanitize_safety (s : Str) :
    '/' ∉ sanitize s ∧ '\\' ∉ sanitize s ∧ sanitize s ≠ [] := by
  refine ⟨fun h => ?_, fun h => ?_, (sanitize_shape s).1⟩
  · have hp := (sanitize_char_props h).2.2
    revert hp; decide
  · have hp := (sanitize_char_props h).2.2
    revert hp; decide

/-- C9: `sanitize` is deterministic and idempotent:
`sanitize (sanitize x) = sanitize x`. -/
theorem sanitize_roundtrip (s : Str) :
    sanitize s = sanitize s ∧ sanitize (sanitize s) = sanitize s := by
  refine ⟨rfl, ?_⟩
  obtain ⟨h0, hh, hl⟩ := sanitize_shape s
  exact sanitize_fixed h0 (fun c hc => sanitize_char_props hc) hh hl

/-- C3 counterexample: `sanitize` does not leave the dot (a member of the
claimed allow-list) unchanged — it replaces it with an underscore — and it
does not percent-encode characters outside the allow-list (`~` passes
through unchanged, and no `%` is ever introduced). -/
theorem sanitize_no_percent_encoding_counterexample :
    sanitize (toL "a.b") = toL "a_b" ∧ sanitize (toL "a.b") ≠ toL "a.b" ∧
      sanitize (toL "a~b") = toL "a~b" := by
  refine ⟨by decide, by decide, by decide⟩

/-- C3 (amended): `sanitize` percent-encodes nothing.  After whitespace
collapsing and control stripping it replaces exactly the characters of the
class `/\:*?"<>|.` by underscores and leaves every other character
unchanged: no problematic character survives, a `%` appears in the output
only if it was in the input, and any nonempty string made of untouched
characters with no underscore at either end is returned verbatim. -/
theorem sanitize_replaces_problematic_only (s : Str) :
    (∀ c ∈ sanitize s, problematic c = false) ∧
    ('%' ∈ sanitize s → '%' ∈ s) ∧
    (s ≠ [] →
      (∀ c ∈ s, pySpace c = false ∧ keepChar c = true ∧ problematic c = false) →
      s.head? ≠ some '_' → s.getLast? ≠ some '_' → sanitize s = s) := by
  refine ⟨fun c hc => (sanitize_char_props hc).2.2, fun h => ?_,
    fun h0 hchars hh hl => sanitize_fixed h0 hchars hh hl⟩
  rcases mem_sanitize_cases h with h1 | h1 | h1
  · cases h1
  · exact h1
  · exact absurd h1 (by decide)

/-- Witness for the amended C3 theorem at concrete inputs. -/
theorem sanitize_replaces_problematic_only_witness :
    '%' ∈ toL "10%" ∧ sanitize (toL "ok-1") = toL "ok-1" := by
  refine ⟨by decide, ?_⟩
  exact (sanitize_replaces_problematic_only (toL "ok-1")).2.2 (by decide)
    (by decide) (by decide) (by decide)

/-! ### Claims about `_truncate_content` -/

theorem take_replicate_eq {α : Type} (a : α) :
    ∀ (n m : Nat), n ≤ m → (List.replicate m a).take n = List.replicate n a := by
  intro n
  induction n with
  | zero => intro m _; simp
  | succ n ih =>
    intro m hm
    cases m with
    | zero => omega
    | succ m2 =>
      rw [List.replicate_succ, List.replicate_succ, List.take_succ_cons,
        ih m2 (by omega)]

theorem drop_replicate_eq {α : Type} (a : α) :
    ∀ (n m : Nat), (List.replicate m a).drop n = List.replicate (m - n) a := by
  intro n
  induction n with
  | zero => intro m; simp
  | succ n ih =>
    intro m
    cases m with
    | zero => simp
    | succ m2 =>
      rw [List.replicate_succ, List.drop_succ_cons, ih m2, Nat.succ_sub_succ]

/-- C10: content within the limit is returned unchanged, for every mode
and every existing content. -/
theorem truncate_noop (content : Str) (mode : WriteMode)
    (existing_content : Option Str) (char_limit : Nat)
    (h : content.length ≤ char_limit) :
    _truncate_content content mode existing_content char_limit = content := by
  unfold _truncate_content
  rw [if_pos h]

/-- Witness for C10 at a concrete input. -/
theorem truncate_noop_witness :
    (toL "abc").length ≤ 10 ∧
      _truncate_content (toL "abc") WriteMode.append (some (toL "x")) 10 =
        toL "abc" :=
  ⟨by decide, truncate_noop (toL "abc") WriteMode.append (some (toL "x")) 10
    (by decide)⟩

/-- C7 counterexample: at `char_limit = 1` the claimed formula
`content[0:limit//2] + "\n...\n" + content[len(content)-limit//2:]` gives
`"\n...\n"`, but the code's `content[-0:]` is all of `content`, so
`_truncate_content` returns `"\n...\nAB"`. -/
theorem truncate_replace_counterexample :
    _truncate_content (toL "AB") WriteMode.replace none 1 =
        truncEllipsis ++ toL "AB" ∧
      _truncate_content (toL "AB") WriteMode.replace none 1 ≠
        specReplacePreview (toL "AB") 1 := by
  exact ⟨by decide, by decide⟩

/-- C7 (amended): for `2 ≤ limit`, in replace mode (or in append mode
with no existing content, where Python truthiness also treats the empty
string as "no existing content") the result of truncation is
`content[0:limit//2] + "\n...\n" + content[len(content)-limit//2:]`; in
particular `truncate("A"*20000, "replace")` with limit 10000 returns
exactly `"A"*5000 + "\n...\n" + "A"*5000`. -/
theorem truncate_replace_halves :
    (∀ (content : Str) (mode : WriteMode) (existing_content : Option Str)
      (limit : Nat), 2 ≤ limit → limit < content.length →
      (mode = WriteMode.replace ∨ existing_content = none ∨
        existing_content = some []) →
      _truncate_content content mode existing_content limit =
        specReplacePreview content limit) ∧
    _truncate_content (List.replicate 20000 'A') WriteMode.replace none 10000 =
      List.replicate 5000 'A' ++ truncEllipsis ++ List.replicate 5000 'A' := by
  have hgen : ∀ (content : Str) (mode : WriteMode)
      (existing_content : Option Str) (limit : Nat),
      2 ≤ limit → limit < content.length →
      (mode = WriteMode.replace ∨ existing_content = none ∨
        existing_content = some []) →
      _truncate_content content mode existing_content limit =
        specReplacePreview content limit := by
    intro content mode existing_content limit h2 hlen hcase
    have hh : limit / 2 ≠ 0 := by omega
    have hlen2 : ¬(content.length ≤ limit) := by omega
    have hslice : pySliceNegFrom (limit / 2) content =
        lastChars (limit / 2) content := by
      unfold pySliceNegFrom lastChars
      rw [if_neg hh]
    have hmr : WriteMode.append ≠ WriteMode.replace := by decide
    cases mode with
    | replace =>
      unfold _truncate_content specReplacePreview
      rw [if_neg hlen2]
      show content.take (limit / 2) ++ truncEllipsis ++
          pySliceNegFrom (limit / 2) content =
        content.take (limit / 2) ++ truncEllipsis ++
          lastChars (limit / 2) content
      rw [hslice]
    | append =>
      rcases hcase with hcase | rfl | rfl
      · exact absurd hcase hmr
      · unfold _truncate_content specReplacePreview
        rw [if_neg hlen2]
        show content.take (limit / 2) ++ truncEllipsis ++
            pySliceNegFrom (limit / 2) content =
          content.take (limit / 2) ++ truncEllipsis ++
            lastChars (limit / 2) content
        rw [hslice]
      · unfold _truncate_content specReplacePreview
        rw [if_neg hlen2]
        show content.take (limit / 2) ++ truncEllipsis ++
            pySliceNegFrom (limit / 2) content =
          content.take (limit / 2) ++ truncEllipsis ++
            lastChars (limit / 2) content
        rw [hslice]
  refine ⟨hgen, ?_⟩
  rw [hgen (List.replicate 20000 'A') WriteMode.replace none 10000 (by omega)
    (by rw [List.length_replicate]; omega) (Or.inl rfl)]
  unfold specReplacePreview lastChars
  rw [take_replicate_eq 'A' 5000 20000 (by omega), List.length_replicate,
    drop_replicate_eq 'A']

/-- Witness for the amended C7 theorem at a concrete input. -/
theorem truncate_replace_halves_witness :
    2 ≤ 4 ∧ 4 < (toL "ABCDEF").length ∧
      _truncate_content (toL "ABCDEF") WriteMode.replace none 4 =
        specReplacePreview (toL "ABCDEF") 4 :=
  ⟨by decide, by decide, truncate_replace_halves.1 (toL "ABCDEF")
    WriteMode.replace none 4 (by decide) (by decide) (Or.inl rfl)⟩

/-- C6 counterexample: at `char_limit = 4` the claimed formula takes the
last `int(0.2*4) = 0` characters of the existing content, but the code's
`existing_content[-0:]` is all of the existing content, so the two
disagree. -/
theorem truncate_append_counterexample :
    _truncate_content (toL "abXYZ") WriteMode.append (some (toL "ab")) 4 =
        truncExisting ++ toL "ab" ++ truncNewEntry ++ toL "X" ++
          truncEllipsis ++ toL "Z" ∧
      _truncate_content (toL "abXYZ") WriteMode.append (some (toL "ab")) 4 ≠
        specAppendPreview (toL "abXYZ") (toL "ab") 4 := by
  exact ⟨by decide, by decide⟩

/-- C6 (amended): for `5 ≤ limit` (so that both `int(0.2*limit)` and
`int(0.4*limit)` are nonzero and Python's `[-n:]` slices mean "the last n
characters"), the append-mode preview with nonempty existing content is
exactly the spec formula: the last `int(0.2*limit)` characters of the
existing content, the `...(existing)` marker in front exactly when the
existing content was truncated, followed by the new material
`content[len(existing.rstrip()):]` — whole when its length is at most
`int(0.4*limit)+int(0.4*limit)`, otherwise the `...(new entry)` marker,
its first `int(0.4*limit)` characters, the ellipsis marker, and its last
`int(0.4*limit)` characters. -/
theorem truncate_append_preview (content ex : Str) (limit : Nat)
    (h5 : 5 ≤ limit) (hlen : limit < content.length) (hex : ex ≠ []) :
    _truncate_content content WriteMode.append (some ex) limit =
      specAppendPreview content ex limit := by
  have he1 : limit / 5 ≠ 0 := by omega
  have hn1 : 2 * limit / 5 ≠ 0 := by omega
  have hlen2 : ¬(content.length ≤ limit) := by omega
  have hslice_ex : pySliceNegFrom (limit / 5) ex = lastChars (limit / 5) ex := by
    unfold pySliceNegFrom lastChars
    rw [if_neg he1]
  have hslice_new : ∀ l : Str, pySliceNegFrom (2 * limit / 5) l =
      lastChars (2 * limit / 5) l := by
    intro l
    unfold pySliceNegFrom lastChars
    rw [if_neg hn1]
  have hlast_ex_ge : ¬(limit / 5 < ex.length) → lastChars (limit / 5) ex = ex := by
    intro h
    unfold lastChars
    have hz : ex.length - limit / 5 = 0 := by omega
    rw [hz, List.drop_zero]
  unfold _truncate_content specAppendPreview
  rw [if_neg hlen2]
  show (if ex = [] then _ else _) = _
  rw [if_neg hex]
  simp only [hslice_ex, hslice_new]
  by_cases het : limit / 5 < ex.length
  · simp only [if_pos het]
    by_cases hnl : (content.drop (pyRstrip ex).length).length ≤
        2 * limit / 5 + 2 * limit / 5
    · simp only [if_pos hnl]
    · simp only [if_neg hnl, List.append_assoc]
  · simp only [if_neg het, hlast_ex_ge het]
    by_cases hnl : (content.drop (pyRstrip ex).length).length ≤
        2 * limit / 5 + 2 * limit / 5
    · simp only [if_pos hnl]
    · simp only [if_neg hnl, List.append_assoc]

/-- Witness for the amended C6 theorem at a concrete input. -/
theorem truncate_append_preview_witness :
    5 ≤ 5 ∧ 5 < (toL "abcdefgh").length ∧ toL "ab" ≠ [] ∧
      _truncate_content (toL "abcdefgh") WriteMode.append (some (toL "ab")) 5 =
        specAppendPreview (toL "abcdefgh") (toL "ab") 5 :=
  ⟨by decide, by decide, by decide,
    truncate_append_preview (toL "abcdefgh") (toL "ab") 5 (by decide)
      (by decide) (by decide)⟩

/-! ### Store lemmas -/

theorem lookupS_setS_same (S : Store) (k v : Str) :
    lookupS (setS S k v) k = some v := by
  induction S with
  | nil => simp [setS, lookupS]
  | cons kv rest ih =>
    obtain ⟨k2, v2⟩ := kv
    unfold setS
    by_cases h : k2 = k
    · rw [if_pos h]
      simp [lookupS]
    · rw [if_neg h]
      unfold lookupS
      rw [if_neg h]
      exact ih

theorem lookupS_setS_other {k k2 : Str} (S : Store) (v : Str) (h : k2 ≠ k) :
    lookupS (setS S k v) k2 = lookupS S k2 := by
  induction S with
  | nil =>
    simp only [setS, lookupS]
    rw [if_neg (fun hc => h hc.symm)]
  | cons kv rest ih =>
    obtain ⟨k3, v3⟩ := kv
    unfold setS
    by_cases h3 : k3 = k
    · rw [if_pos h3]
      unfold lookupS
      rw [if_neg (fun hc => h hc.symm), if_neg (fun hc => h (h3 ▸ hc).symm)]
    · rw [if_neg h3]
      unfold lookupS
      by_cases h4 : k3 = k2
      · rw [if_pos h4, if_pos h4]
      · rw [if_neg h4, if_neg h4]
        exact ih

theorem upsertNoteIdx_isSome (S : Store) (k init link : Str) :
    (lookupS (upsertNoteIdx S k init link) k).isSome := by
  unfold upsertNoteIdx
  cases hl : lookupS S k with
  | none =>
    rw [lookupS_setS_same]
    rfl
  | some cur =>
    show (lookupS (if link ∈ pySplitlines cur then S
      else setS S k (pyStrip cur ++ '\n' :: (link ++ ['\n']))) k).isSome
    by_cases hline : link ∈ pySplitlines cur
    · rw [if_pos hline, hl]
      rfl
    · rw [if_neg hline, lookupS_setS_same]
      rfl

/-! ### C5: empty section path -/

/-- C5 counterexample: with an empty section path,
`update_section_index` is not a no-op — it writes a leaf index document
at `notes/<project>//_index.md`. -/
theorem empty_section_counterexample :
    update_section_index [] (toL "p") (toL "") (toL "t") ≠ ([] : Store) ∧
      lookupS (update_section_index [] (toL "p") (toL "") (toL "t"))
          (toL "notes/p//_index.md") =
        some (toL "# \n\nNotes in this section:\n- [[t]]\n") := by
  exact ⟨by decide, by decide⟩

/-- C5 (amended): a section path that is empty after trimming separators
short-circuits `ensure_index_files` as a no-op, but `update_section_index`
still proceeds: it guarantees an index document at
`notes/<sanitized project>//_index.md` (display name: the raw section
string). -/
theorem empty_section_behavior (S : Store) (project sec title : Str)
    (h : pyParts sec = []) :
    ensure_index_files S project sec = S ∧
      (lookupS (update_section_index S project sec title)
        (_index_path project sec)).isSome := by
  constructor
  · unfold ensure_index_files
    rw [h]
  · unfold update_section_index
    exact upsertNoteIdx_isSome S _ _ _

/-- Witness for the amended C5 theorem at a concrete input. -/
theorem empty_section_behavior_witness :
    pyParts (toL "///") = [] ∧
      ensure_index_files [] (toL "p") (toL "///") = [] ∧
      (lookupS (update_section_index [] (toL "p") (toL "///") (toL "t"))
        (_index_path (toL "p") (toL "///"))).isSome := by
  refine ⟨by decide,
    (empty_section_behavior [] (toL "p") (toL "///") (toL "t") (by decide)).1,
    (empty_section_behavior [] (toL "p") (toL "///") (toL "t") (by decide)).2⟩

/-! ### C2: the retry driver -/

theorem sleep_trace_shift (i j : Nat) :
    (List.range (j + 1)).map (fun d => sleepDelay (i + d)) =
      sleepDelay i :: (List.range j).map (fun d => sleepDelay (i + 1 + d)) := by
  rw [List.range_succ_eq_map, List.map_cons, List.map_map]
  rw [Nat.add_zero]
  congr 1
  refine List.map_congr_left ?_
  intro d _
  show sleepDelay (i + (d + 1)) = sleepDelay (i + 1 + d)
  congr 1
  omega

theorem retryGo_succ {α : Type} (f : Nat → Attempt α) (i rem : Nat) :
    retryGo f i (rem + 1) =
      match f i with
      | Attempt.ok a => ([], RetryResult.ok a)
      | Attempt.notFound => ([], RetryResult.raisedNotFound)
      | Attempt.otherError => ([], RetryResult.raisedOther)
      | Attempt.precond =>
        match rem with
        | 0 => ([], RetryResult.raisedPrecond)
        | _ + 1 =>
          (sleepDelay i :: (retryGo f (i + 1) rem).1,
            (retryGo f (i + 1) rem).2) := rfl

theorem retryGo_all_precond {α : Type} (f : Nat → Attempt α) :
    ∀ (rem i : Nat), 1 ≤ rem → (∀ d, d < rem → f (i + d) = Attempt.precond) →
      retryGo f i rem =
        ((List.range (rem - 1)).map (fun d => sleepDelay (i + d)),
          RetryResult.raisedPrecond) := by
  intro rem
  induction rem with
  | zero => intro i h; omega
  | succ r ih =>
    intro i _ hall
    have hfi : f i = Attempt.precond := by
      have h0 := hall 0 (by omega)
      simpa using h0
    rw [retryGo_succ, hfi]
    cases r with
    | zero => rfl
    | succ r2 =>
      show (sleepDelay i :: (retryGo f (i + 1) (r2 + 1)).1,
        (retryGo f (i + 1) (r2 + 1)).2) = _
      rw [ih (i + 1) (by omega)
        (fun d hd => by
          have hd2 := hall (d + 1) (by omega)
          rw [show i + 1 + d = i + (d + 1) from by omega]
          exact hd2)]
      show (sleepDelay i :: (List.range (r2 + 1 - 1)).map
          (fun d => sleepDelay (i + 1 + d)), RetryResult.raisedPrecond) = _
      rw [show r2 + 1 - 1 = r2 from by omega,
        show r2 + 1 + 1 - 1 = r2 + 1 from by omega, sleep_trace_shift]

theorem retryGo_stops {α : Type} (f : Nat → Attempt α) :
    ∀ (j rem i : Nat), j < rem → (∀ d, d < j → f (i + d) = Attempt.precond) →
      f (i + j) ≠ Attempt.precond →
      retryGo f i rem =
        ((List.range j).map (fun d => sleepDelay (i + d)),
          match f (i + j) with
          | Attempt.ok a => RetryResult.ok a
          | Attempt.notFound => RetryResult.raisedNotFound
          | Attempt.otherError => RetryResult.raisedOther
          | Attempt.precond => RetryResult.fellThrough) := by
  intro j
  induction j with
  | zero =>
    intro rem i hlt _ hstop
    cases rem with
    | zero => omega
    | succ r =>
      rw [retryGo_succ]
      cases hf : f i with
      | ok a => simp [hf]
      | notFound => simp [hf]
      | otherError => simp [hf]
      | precond =>
        exact absurd (by rw [show i + 0 = i from rfl]; exact hf) hstop
  | succ j2 ih =>
    intro rem i hlt hall hstop
    cases rem with
    | zero => omega
    | succ r =>
      have hfi : f i = Attempt.precond := by
        have h0 := hall 0 (by omega)
        simpa using h0
      rw [retryGo_succ, hfi]
      cases r with
      | zero => omega
      | succ r2 =>
        show (sleepDelay i :: (retryGo f (i + 1) (r2 + 1)).1,
          (retryGo f (i + 1) (r2 + 1)).2) = _
        rw [ih (r2 + 1) (i + 1) (by omega)
          (fun d hd => by
            have hd2 := hall (d + 1) (by omega)
            rw [show i + 1 + d = i + (d + 1) from by omega]
            exact hd2)
          (by rw [show i + 1 + j2 = i + (j2 + 1) from by omega]; exact hstop)]
        rw [show i + 1 + j2 = i + (j2 + 1) from by omega, sleep_trace_shift]

/-- C2: `_retry_on_conflict` with its fixed budget of 5 attempts retries
the whole function on `PreconditionFailed`, sleeping `0.1 * 2^attempt`
between attempts (the base delay doubles each attempt); five straight
conflicts re-raise `PreconditionFailed`; `NotFound`, any other error, and
success all stop the loop immediately after the pending attempt, with no
further retry. -/
theorem retry_on_conflict_policy :
    (∀ (α : Type) (f : Nat → Attempt α),
      (∀ i, i < 5 → f i = Attempt.precond) →
      _retry_on_conflict f 5 =
        ((List.range 4).map sleepDelay, RetryResult.raisedPrecond)) ∧
    (∀ (α : Type) (f : Nat → Attempt α) (j : Nat) (a : α), j < 5 →
      (∀ i, i < j → f i = Attempt.precond) →
      (f j = Attempt.notFound →
        _retry_on_conflict f 5 =
          ((List.range j).map sleepDelay, RetryResult.raisedNotFound)) ∧
      (f j = Attempt.otherError →
        _retry_on_conflict f 5 =
          ((List.range j).map sleepDelay, RetryResult.raisedOther)) ∧
      (f j = Attempt.ok a →
        _retry_on_conflict f 5 =
          ((List.range j).map sleepDelay, RetryResult.ok a))) ∧
    (∀ i : Nat, sleepDelay (i + 1) = 2 * sleepDelay i) := by
  have htrace : ∀ j : Nat, (List.range j).map (fun d => sleepDelay (0 + d)) =
      (List.range j).map sleepDelay := by
    intro j
    refine List.map_congr_left ?_
    intro d _
    rw [Nat.zero_add]
  refine ⟨?_, ?_, ?_⟩
  · intro α f hall
    unfold _retry_on_conflict
    rw [retryGo_all_precond f 5 0 (by omega)
      (fun d hd => by rw [Nat.zero_add]; exact hall d hd)]
    rw [show (5 : Nat) - 1 = 4 from rfl, htrace]
  · intro α f j a hj hall
    refine ⟨?_, ?_, ?_⟩ <;> intro hfj
    · unfold _retry_on_conflict
      rw [retryGo_stops f j 5 0 hj
        (fun d hd => by rw [Nat.zero_add]; exact hall d hd)
        (by rw [Nat.zero_add, hfj]; intro hc; cases hc)]
      rw [htrace, Nat.zero_add, hfj]
    · unfold _retry_on_conflict
      rw [retryGo_stops f j 5 0 hj
        (fun d hd => by rw [Nat.zero_add]; exact hall d hd)
        (by rw [Nat.zero_add, hfj]; intro hc; cases hc)]
      rw [htrace, Nat.zero_add, hfj]
    · unfold _retry_on_conflict
      rw [retryGo_stops f j 5 0 hj
        (fun d hd => by rw [Nat.zero_add]; exact hall d hd)
        (by rw [Nat.zero_add, hfj]; intro hc; cases hc)]
      rw [htrace, Nat.zero_add, hfj]
  · intro i
    unfold sleepDelay
    rw [pow_succ]
    ring

/-- Witness for the C2 theorem on a concrete attempt sequence: five
straight conflicts exhaust the budget with four doubling sleeps, and a
`NotFound` on the very first attempt is re-raised with no retry. -/
theorem retry_on_conflict_policy_witness :
    _retry_on_conflict (fun _ => (Attempt.precond : Attempt Unit)) 5 =
        ((List.range 4).map sleepDelay, RetryResult.raisedPrecond) ∧
      _retry_on_conflict (fun _ => (Attempt.notFound : Attempt Unit)) 5 =
        ([], RetryResult.raisedNotFound) :=
  ⟨retry_on_conflict_policy.1 Unit (fun _ => Attempt.precond)
      (fun _ _ => rfl),
    ((retry_on_conflict_policy.2.1 Unit (fun _ => Attempt.notFound) 0 Unit.unit
      (by omega) (fun i hi => absurd hi (by omega))).1 rfl).trans (by simp)⟩

/-! ### C1: idempotence of the index maintenance -/

theorem NonWsEnds_linkLine (name : Str) : NonWsEnds (linkLine name) := by
  refine ⟨?_, ?_, ?_⟩
  · show toL "- [[" ++ name ++ toL "]]" ≠ []
    simp [toL]
  · intro c hc
    have hh : (toL "- [[" ++ name ++ toL "]]").head? = some '-' := by
      rw [List.append_assoc, List.head?_append]
      rfl
    rw [linkLine] at hc
    rw [hh] at hc
    cases hc
    decide
  · intro c hc
    have hh : (toL "- [[" ++ name ++ toL "]]").getLast? = some ']' := by
      rw [List.getLast?_append]
      rfl
    rw [linkLine] at hc
    rw [hh] at hc
    cases hc
    decide

theorem infix_dropWhile_of_head {p : Char → Bool} :
    ∀ {l : Str} {lnk : Str}, lnk ≠ [] →
      (∀ c, lnk.head? = some c → p c = false) →
      lnk <:+: l → lnk <:+: l.dropWhile p := by
  intro l
  induction l with
  | nil =>
    intro lnk hne _ h
    rw [List.infix_nil] at h
    exact absurd h hne
  | cons a as ih =>
    intro lnk hne hh h
    by_cases hpa : p a
    · rw [List.dropWhile_cons_of_pos hpa]
      rcases List.infix_cons_iff.mp h with hpre | hinf
      · exfalso
        cases lnk with
        | nil => exact hne rfl
        | cons c cs =>
          obtain ⟨t, ht⟩ := hpre
          cases ht
          have := hh a (by rfl)
          rw [this] at hpa
          cases hpa
      · exact ih hne hh hinf
    · rw [List.dropWhile_cons_of_neg hpa]
      exact h

theorem infix_pyStrip {lnk cur : Str} (h : NonWsEnds lnk)
    (hinf : lnk <:+: cur) : lnk <:+: pyStrip cur := by
  obtain ⟨hne, hh, hl⟩ := h
  have s1 : lnk <:+: cur.dropWhile pySpace :=
    infix_dropWhile_of_head hne hh hinf
  have s2 : lnk.reverse <:+: (cur.dropWhile pySpace).reverse :=
    List.reverse_infix.mpr s1
  have s3 : lnk.reverse <:+:
      ((cur.dropWhile pySpace).reverse).dropWhile pySpace := by
    refine infix_dropWhile_of_head ?_ ?_ s2
    · simp [hne]
    · intro c hc
      rw [List.head?_reverse] at hc
      exact hl c hc
  show lnk <:+: (((cur.dropWhile pySpace).reverse).dropWhile pySpace).reverse
  rw [← List.reverse_reverse lnk] at s3 ⊢
  exact List.reverse_infix.mpr (by simpa using s3)

theorem infix_append_left {lnk X B : Str} (h : lnk <:+: X) :
    lnk <:+: X ++ B :=
  h.trans (List.prefix_append X B).isInfix

theorem infix_append_right {lnk X : Str} (A : Str) (h : lnk <:+: X) :
    lnk <:+: A ++ X :=
  h.trans (List.suffix_append A X).isInfix

theorem keeps_refl (S : Store) : Keeps S S := by
  intro k cur h
  exact ⟨cur, h, fun _ _ hi => hi⟩

theorem keeps_trans {S1 S2 S3 : Store} (h1 : Keeps S1 S2)
    (h2 : Keeps S2 S3) : Keeps S1 S3 := by
  intro k cur h
  obtain ⟨c2, hl2, hi2⟩ := h1 k cur h
  obtain ⟨c3, hl3, hi3⟩ := h2 k c2 hl2
  exact ⟨c3, hl3, fun lnk hn hi => hi3 lnk hn (hi2 lnk hn hi)⟩

theorem keeps_setS_absent {S : Store} {k : Str} (v : Str)
    (h : lookupS S k = none) : Keeps S (setS S k v) := by
  intro k2 cur hl
  have hne : k2 ≠ k := by
    intro hc
    rw [hc, h] at hl
    cases hl
  rw [← lookupS_setS_other S v hne] at hl
  exact ⟨cur, hl, fun _ _ hi => hi⟩

theorem keeps_append_write {S : Store} {k cur0 : Str} (lnk0 : Str)
    (h : lookupS S k = some cur0) :
    Keeps S (setS S k (pyStrip cur0 ++ '\n' :: (lnk0 ++ ['\n']))) := by
  intro k2 cur hl
  by_cases hk : k2 = k
  · subst hk
    rw [h] at hl
    cases hl
    refine ⟨_, lookupS_setS_same S k2 _, ?_⟩
    intro lnk hn hi
    exact infix_append_left (infix_pyStrip hn hi)
  · rw [← lookupS_setS_other S _ hk] at hl
    exact ⟨cur, hl, fun _ _ hi => hi⟩

theorem keeps_createIfAbsent (S : Store) (k v : Str) :
    Keeps S (createIfAbsent S k v) := by
  unfold createIfAbsent
  cases hl : lookupS S k with
  | none => exact keeps_setS_absent v hl
  | some cur => exact keeps_refl S

theorem keeps_appendIfNoInfix (S : Store) (k lnk0 : Str) :
    Keeps S (appendIfNoInfix S k lnk0) := by
  unfold appendIfNoInfix
  cases hl : lookupS S k with
  | none => exact keeps_refl S
  | some cur =>
    show Keeps S (if lnk0 <:+: cur then S
      else setS S k (pyStrip cur ++ '\n' :: (lnk0 ++ ['\n'])))
    by_cases hi : lnk0 <:+: cur
    · rw [if_pos hi]; exact keeps_refl S
    · rw [if_neg hi]; exact keeps_append_write lnk0 hl

theorem keeps_upsertProjIdx (S : Store) (k init lnk0 : Str) :
    Keeps S (upsertProjIdx S k init lnk0) := by
  unfold upsertProjIdx
  cases hl : lookupS S k with
  | none => exact keeps_setS_absent init hl
  | some cur =>
    show Keeps S (if lnk0 <:+: cur then S
      else setS S k (pyStrip cur ++ '\n' :: (lnk0 ++ ['\n'])))
    by_cases hi : lnk0 <:+: cur
    · rw [if_pos hi]; exact keeps_refl S
    · rw [if_neg hi]; exact keeps_append_write lnk0 hl

theorem keeps_upsertNoteIdx (S : Store) (k init lnk0 : Str) :
    Keeps S (upsertNoteIdx S k init lnk0) := by
  unfold upsertNoteIdx
  cases hl : lookupS S k with
  | none => exact keeps_setS_absent init hl
  | some cur =>
    show Keeps S (if lnk0 ∈ pySplitlines cur then S
      else setS S k (pyStrip cur ++ '\n' :: (lnk0 ++ ['\n'])))
    by_cases hi : lnk0 ∈ pySplitlines cur
    · rw [if_pos hi]; exact keeps_refl S
    · rw [if_neg hi]; exact keeps_append_write lnk0 hl

theorem ensureLoop_cons (project : Str) (rawAcc : List Str) (p : Str)
    (rest2 : List Str) (S : Store) :
    ensureLoop project rawAcc (p :: rest2) S =
      ensureLoop project (rawAcc ++ [p]) rest2
        (match rest2 with
         | [] => createIfAbsent S
             (_index_path project (joinSlash (rawAcc ++ [p]))) (leafInit p)
         | nxt :: _ =>
           appendIfNoInfix
             (createIfAbsent S
               (_index_path project (joinSlash (rawAcc ++ [p]))) (midInit p))
             (_index_path project (joinSlash (rawAcc ++ [p])))
             (linkLine nxt)) := by
  cases rest2 <;> rfl

theorem keeps_ensureLoop (project : Str) :
    ∀ (rest rawAcc : List Str) (S : Store),
      Keeps S (ensureLoop project rawAcc rest S) := by
  intro rest
  induction rest with
  | nil => intro rawAcc S; exact keeps_refl S
  | cons p rest2 ih =>
    intro rawAcc S
    rw [ensureLoop_cons]
    cases rest2 with
    | nil =>
      exact keeps_trans (keeps_createIfAbsent S _ _) (ih _ _)
    | cons nxt r3 =>
      exact keeps_trans
        (keeps_trans (keeps_createIfAbsent S _ _)
          (keeps_appendIfNoInfix _ _ _))
        (ih _ _)

theorem keeps_ensure (S : Store) (project sec : Str) :
    Keeps S (ensure_index_files S project sec) := by
  unfold ensure_index_files
  cases hp : pyParts sec with
  | nil => exact keeps_refl S
  | cons top rest =>
    exact keeps_trans (keeps_upsertProjIdx S _ _ _)
      (keeps_ensureLoop project _ _ _)

theorem keeps_update (S : Store) (project sec title : Str) :
    Keeps S (update_section_index S project sec title) := by
  unfold update_section_index
  exact keeps_upsertNoteIdx S _ _ _

theorem slAux_word_nl {link : Str}
    (hbf : ∀ c ∈ link, lineBoundary c = false) :
    ∀ acc : Str, slAux false (link ++ ['\n']) acc = [acc.reverse ++ link] := by
  induction link with
  | nil =>
    intro acc
    show slAux false ['\n'] acc = [acc.reverse ++ []]
    unfold slAux
    rw [if_neg (by simp), if_pos (by decide)]
    show acc.reverse :: slAux false [] [] = [acc.reverse ++ []]
    unfold slAux
    simp
  | cons c cs ih =>
    intro acc
    have hc : lineBoundary c = false := hbf c (List.mem_cons_self _ _)
    show slAux false (c :: (cs ++ ['\n'])) acc = _
    unfold slAux
    rw [if_neg (by simp), if_neg (by simp [hc])]
    rw [ih (fun d hd => hbf d (List.mem_cons_of_mem _ hd)) (c :: acc)]
    simp

theorem mem_slAux_link {link : Str}
    (hbf : ∀ c ∈ link, lineBoundary c = false) :
    ∀ (A : Str) (skip : Bool) (acc : Str), (skip = true → acc = []) →
      link ∈ slAux skip (A ++ '\n' :: (link ++ ['\n'])) acc := by
  intro A
  induction A with
  | nil =>
    intro skip acc hsa
    show link ∈ slAux skip ('\n' :: (link ++ ['\n'])) acc
    unfold slAux
    cases skip with
    | true =>
      rw [if_pos ⟨rfl, rfl⟩, hsa rfl, slAux_word_nl hbf []]
      simp
    | false =>
      rw [if_neg (by simp), if_pos (by decide)]
      show link ∈ acc.reverse :: slAux (decide ('\n' = '\r')) (link ++ ['\n']) []
      rw [show (decide ('\n' = '\r')) = false from rfl, slAux_word_nl hbf []]
      simp
  | cons a A2 ih =>
    intro skip acc hsa
    show link ∈ slAux skip (a :: (A2 ++ '\n' :: (link ++ ['\n']))) acc
    unfold slAux
    by_cases h1 : skip = true ∧ a = '\n'
    · rw [if_pos h1]
      exact ih false acc (by intro hc; cases hc)
    · rw [if_neg h1]
      by_cases h2 : lineBoundary a
      · rw [if_pos h2]
        exact List.mem_cons_of_mem _ (ih (decide (a = '\r')) [] (fun _ => rfl))
      · rw [if_neg h2]
        exact ih false (a :: acc) (by intro hc; cases hc)

theorem mem_pySplitlines_append_link {A link : Str}
    (hbf : ∀ c ∈ link, lineBoundary c = false) :
    link ∈ pySplitlines (A ++ '\n' :: (link ++ ['\n'])) :=
  mem_slAux_link hbf A false [] (fun _ => rfl)

theorem bf_linkLine {t : Str} (hbf : ∀ c ∈ t, lineBoundary c = false) :
    ∀ c ∈ linkLine t, lineBoundary c = false := by
  intro c hc
  unfold linkLine at hc
  rw [List.append_assoc, List.mem_append] at hc
  rcases hc with hc | hc
  · have : c = '-' ∨ c = ' ' ∨ c = '[' ∨ c = '[' := by
      simpa [toL] using hc
    rcases this with rfl | rfl | rfl | rfl <;> decide
  · rw [List.mem_append] at hc
    rcases hc with hc | hc
    · exact hbf c hc
    · have : c = ']' ∨ c = ']' := by simpa [toL] using hc
      rcases this with rfl | rfl <;> decide

theorem createIfAbsent_present (S : Store) (k v : Str) :
    ∃ cur, lookupS (createIfAbsent S k v) k = some cur := by
  unfold createIfAbsent
  cases hl : lookupS S k with
  | none => exact ⟨v, lookupS_setS_same S k v⟩
  | some cur => exact ⟨cur, hl⟩

theorem upsertProjIdx_establishes (S : Store) (k init lnk : Str)
    (hinit : lnk <:+: init) :
    ∃ cur, lookupS (upsertProjIdx S k init lnk) k = some cur ∧
      lnk <:+: cur := by
  unfold upsertProjIdx
  cases hl : lookupS S k with
  | none => exact ⟨init, lookupS_setS_same S k init, hinit⟩
  | some cur =>
    show ∃ cur2, lookupS (if lnk <:+: cur then S
      else setS S k (pyStrip cur ++ '\n' :: (lnk ++ ['\n']))) k = some cur2 ∧
        lnk <:+: cur2
    by_cases hi : lnk <:+: cur
    · rw [if_pos hi]
      exact ⟨cur, hl, hi⟩
    · rw [if_neg hi]
      refine ⟨_, lookupS_setS_same S k _, ?_⟩
      refine infix_append_right (pyStrip cur) ?_
      exact (List.infix_cons (infix_append_left (List.infix_refl lnk)))

theorem appendIfNoInfix_establishes (S : Store) (k lnk : Str)
    (hsome : ∃ c0, lookupS S k = some c0) :
    ∃ cur, lookupS (appendIfNoInfix S k lnk) k = some cur ∧
      lnk <:+: cur := by
  obtain ⟨c0, hc0⟩ := hsome
  unfold appendIfNoInfix
  rw [hc0]
  show ∃ cur2, lookupS (if lnk <:+: c0 then S
    else setS S k (pyStrip c0 ++ '\n' :: (lnk ++ ['\n']))) k = some cur2 ∧
      lnk <:+: cur2
  by_cases hi : lnk <:+: c0
  · rw [if_pos hi]
    exact ⟨c0, hc0, hi⟩
  · rw [if_neg hi]
    refine ⟨_, lookupS_setS_same S k _, ?_⟩
    refine infix_append_right (pyStrip c0) ?_
    exact (List.infix_cons (infix_append_left (List.infix_refl lnk)))

theorem upsertNoteIdx_line (S : Store) (k init lnk : Str)
    (hbf : ∀ c ∈ lnk, lineBoundary c = false)
    (hinit : ∃ A, init = A ++ '\n' :: (lnk ++ ['\n'])) :
    ∃ cur, lookupS (upsertNoteIdx S k init lnk) k = some cur ∧
      lnk ∈ pySplitlines cur := by
  unfold upsertNoteIdx
  cases hl : lookupS S k with
  | none =>
    obtain ⟨A, hA⟩ := hinit
    refine ⟨init, lookupS_setS_same S k init, ?_⟩
    rw [hA]
    exact mem_pySplitlines_append_link hbf
  | some cur =>
    show ∃ cur2, lookupS (if lnk ∈ pySplitlines cur then S
      else setS S k (pyStrip cur ++ '\n' :: (lnk ++ ['\n']))) k = some cur2 ∧
        lnk ∈ pySplitlines cur2
    by_cases hi : lnk ∈ pySplitlines cur
    · rw [if_pos hi]
      exact ⟨cur, hl, hi⟩
    · rw [if_neg hi]
      refine ⟨_, lookupS_setS_same S k _, ?_⟩
      exact mem_pySplitlines_append_link hbf

theorem createIfAbsent_noop {S : Store} {k : Str} (v : Str)
    (h : ∃ c0, lookupS S k = some c0) : createIfAbsent S k v = S := by
  obtain ⟨c0, hc0⟩ := h
  unfold createIfAbsent
  rw [hc0]

theorem upsertProjIdx_noop {S : Store} {k lnk : Str} (init : Str)
    (h : ∃ c0, lookupS S k = some c0 ∧ lnk <:+: c0) :
    upsertProjIdx S k init lnk = S := by
  obtain ⟨c0, hc0, hi⟩ := h
  unfold upsertProjIdx
  rw [hc0]
  show (if lnk <:+: c0 then S
    else setS S k (pyStrip c0 ++ '\n' :: (lnk ++ ['\n']))) = S
  rw [if_pos hi]

theorem appendIfNoInfix_noop {S : Store} {k lnk : Str}
    (h : ∃ c0, lookupS S k = some c0 ∧ lnk <:+: c0) :
    appendIfNoInfix S k lnk = S := by
  obtain ⟨c0, hc0, hi⟩ := h
  unfold appendIfNoInfix
  rw [hc0]
  show (if lnk <:+: c0 then S
    else setS S k (pyStrip c0 ++ '\n' :: (lnk ++ ['\n']))) = S
  rw [if_pos hi]

theorem upsertNoteIdx_noop {S : Store} {k lnk : Str} (init : Str)
    (h : ∃ c0, lookupS S k = some c0 ∧ lnk ∈ pySplitlines c0) :
    upsertNoteIdx S k init lnk = S := by
  obtain ⟨c0, hc0, hi⟩ := h
  unfold upsertNoteIdx
  rw [hc0]
  show (if lnk ∈ pySplitlines c0 then S
    else setS S k (pyStrip c0 ++ '\n' :: (lnk ++ ['\n']))) = S
  rw [if_pos hi]

theorem loopDone_of_keeps (project : Str) :
    ∀ (rest rawAcc : List Str) {S S2 : Store}, Keeps S S2 →
      LoopDone project rawAcc rest S → LoopDone project rawAcc rest S2 := by
  intro rest
  induction rest with
  | nil => intro rawAcc S S2 _ _; trivial
  | cons p rest2 ih =>
    intro rawAcc S S2 hk h
    obtain ⟨⟨cur, hl, hm⟩, hrec⟩ := h
    obtain ⟨cur2, hl2, hi2⟩ := hk _ cur hl
    refine ⟨⟨cur2, hl2, ?_⟩, ih _ hk hrec⟩
    cases rest2 with
    | nil => trivial
    | cons nxt r3 =>
      exact hi2 (linkLine nxt) (NonWsEnds_linkLine nxt) hm

theorem ensureLoop_establishes (project : Str) :
    ∀ (rest rawAcc : List Str) (S : Store),
      LoopDone project rawAcc rest (ensureLoop project rawAcc rest S) := by
  intro rest
  induction rest with
  | nil => intro rawAcc S; trivial
  | cons p rest2 ih =>
    intro rawAcc S
    rw [ensureLoop_cons]
    cases rest2 with
    | nil =>
      refine ⟨?_, trivial⟩
      obtain ⟨cur, hcur⟩ := createIfAbsent_present S
        (_index_path project (joinSlash (rawAcc ++ [p]))) (leafInit p)
      obtain ⟨cur2, hl2, _⟩ := keeps_ensureLoop project [] (rawAcc ++ [p]) _
        _ cur hcur
      exact ⟨cur2, hl2, trivial⟩
    | cons nxt r3 =>
      refine ⟨?_, ih (rawAcc ++ [p]) _⟩
      obtain ⟨cur, hcur, hinf⟩ := appendIfNoInfix_establishes
        (createIfAbsent S (_index_path project (joinSlash (rawAcc ++ [p])))
          (midInit p))
        (_index_path project (joinSlash (rawAcc ++ [p]))) (linkLine nxt)
        (createIfAbsent_present S _ _)
      obtain ⟨cur2, hl2, hi2⟩ := keeps_ensureLoop project (nxt :: r3)
        (rawAcc ++ [p]) _ _ cur hcur
      exact ⟨cur2, hl2, hi2 (linkLine nxt) (NonWsEnds_linkLine nxt) hinf⟩

theorem ensureLoop_noop (project : Str) :
    ∀ (rest rawAcc : List Str) (S : Store),
      LoopDone project rawAcc rest S →
      ensureLoop project rawAcc rest S = S := by
  intro rest
  induction rest with
  | nil => intro rawAcc S _; rfl
  | cons p rest2 ih =>
    intro rawAcc S h
    obtain ⟨⟨cur, hl, hm⟩, hrec⟩ := h
    rw [ensureLoop_cons]
    cases rest2 with
    | nil =>
      rw [createIfAbsent_noop (leafInit p) ⟨cur, hl⟩]
      exact ih (rawAcc ++ [p]) S hrec
    | cons nxt r3 =>
      show ensureLoop project (rawAcc ++ [p]) (nxt :: r3)
        (appendIfNoInfix
          (createIfAbsent S (_index_path project (joinSlash (rawAcc ++ [p])))
            (midInit p))
          (_index_path project (joinSlash (rawAcc ++ [p])))
          (linkLine nxt)) = S
      rw [createIfAbsent_noop (midInit p) ⟨cur, hl⟩,
        appendIfNoInfix_noop ⟨cur, hl, hm⟩]
      exact ih (rawAcc ++ [p]) S hrec

theorem projInit_has_link (project top : Str) :
    linkLine top <:+: projInit project top := by
  unfold projInit
  exact List.infix_append _ _ _

theorem noteInit_decomp (disp title : Str) :
    noteInit disp title =
      (toL "# " ++ disp ++ toL "\n\nNotes in this section:") ++
        '\n' :: (linkLine title ++ ['\n']) := by
  unfold noteInit
  have hsplit : toL "\n\nNotes in this section:\n" =
      toL "\n\nNotes in this section:" ++ ['\n'] := by decide
  rw [hsplit]
  simp [List.append_assoc]

theorem runOnce_done (S : Store) (project sec title : Str)
    (hbf : ∀ c ∈ title, lineBoundary c = false) :
    Done project sec title (runOnce S project sec title) := by
  have hleaf : ∀ E : Store, ∃ cur,
      lookupS (update_section_index E project sec title)
        (_index_path project sec) = some cur ∧
      linkLine title ∈ pySplitlines cur := by
    intro E
    unfold update_section_index
    exact upsertNoteIdx_line E _ _ _ (bf_linkLine hbf)
      ⟨_, noteInit_decomp _ title⟩
  unfold Done runOnce
  cases hp : pyParts sec with
  | nil =>
    refine ⟨trivial, trivial, hleaf _⟩
  | cons top rest =>
    have hens : ensure_index_files S project sec =
        ensureLoop project [] (top :: rest)
          (upsertProjIdx S (projIndexPath project) (projInit project top)
            (linkLine top)) := by
      unfold ensure_index_files
      rw [hp]
    refine ⟨?_, ?_, hleaf _⟩
    · obtain ⟨cur, hcur, hinf⟩ := upsertProjIdx_establishes S
        (projIndexPath project) (projInit project top) (linkLine top)
        (projInit_has_link project top)
      have hkeep : Keeps
          (upsertProjIdx S (projIndexPath project) (projInit project top)
            (linkLine top))
          (update_section_index (ensure_index_files S project sec)
            project sec title) := by
        rw [hens]
        exact keeps_trans (keeps_ensureLoop project (top :: rest) [] _)
          (keeps_update _ project sec title)
      obtain ⟨cur2, hl2, hi2⟩ := hkeep _ cur hcur
      exact ⟨cur2, hl2, hi2 _ (NonWsEnds_linkLine top) hinf⟩
    · have h0 := ensureLoop_establishes project (top :: rest) []
        (upsertProjIdx S (projIndexPath project) (projInit project top)
          (linkLine top))
      rw [← hens] at h0
      exact loopDone_of_keeps project (top :: rest) []
        (keeps_update _ project sec title) h0

theorem runOnce_noop (S : Store) (project sec title : Str)
    (h : Done project sec title S) :
    runOnce S project sec title = S := by
  obtain ⟨h1, h2, h3⟩ := h
  have hens : ensure_index_files S project sec = S := by
    unfold ensure_index_files
    cases hp : pyParts sec with
    | nil => rfl
    | cons top rest =>
      rw [hp] at h1 h2
      obtain ⟨cur, hcur, hinf⟩ := h1
      show ensureLoop project [] (top :: rest)
        (upsertProjIdx S (projIndexPath project) (projInit project top)
          (linkLine top)) = S
      rw [upsertProjIdx_noop (projInit project top) ⟨cur, hcur, hinf⟩]
      exact ensureLoop_noop project (top :: rest) [] S h2
  unfold runOnce
  rw [hens]
  unfold update_section_index
  exact upsertNoteIdx_noop _ h3

/-- C1 (amended): one index-maintenance pass (`ensure_index_files`
followed by `update_section_index`) is idempotent from any store state,
provided the note title contains no line-boundary character: the second
pass finds every link already recorded (the section links by substring
containment, the note link by exact line membership) and performs no
write. -/
theorem index_update_idempotent (S : Store) (project sec title : Str)
    (hbf : ∀ c ∈ title, lineBoundary c = false) :
    runOnce (runOnce S project sec title) project sec title =
      runOnce S project sec title :=
  runOnce_noop _ project sec title (runOnce_done S project sec title hbf)

/-- C1 counterexample: for a title containing a carriage return the
duplicate check `link_line in current.splitlines()` never matches (the
stored link line is split in two at the `\r`), so the second pass appends
the same link line again and the document set differs. -/
theorem index_update_idempotent_counterexample :
    runOnce (runOnce [] (toL "p") (toL "s") (toL "a\rb")) (toL "p") (toL "s")
        (toL "a\rb") ≠
      runOnce [] (toL "p") (toL "s") (toL "a\rb") := by
  decide

/-- Witness for the amended C1 theorem at a concrete input. -/
theorem index_update_idempotent_witness :
    runOnce (runOnce [] (toL "p") (toL "a/b") (toL "T")) (toL "p") (toL "a/b")
        (toL "T") =
      runOnce [] (toL "p") (toL "a/b") (toL "T") :=
  index_update_idempotent [] (toL "p") (toL "a/b") (toL "T") (by decide)

/-! ### C4: the textual format of index documents -/

theorem lookupS_mem : ∀ {S : Store} {k cur : Str},
    lookupS S k = some cur → (k, cur) ∈ S := by
  intro S
  induction S with
  | nil => intro k cur h; cases h
  | cons kv rest ih =>
    intro k cur h
    obtain ⟨k2, v2⟩ := kv
    unfold lookupS at h
    by_cases hk : k2 = k
    · rw [if_pos hk] at h
      cases h
      subst hk
      exact List.mem_cons_self _ _
    · rw [if_neg hk] at h
      exact List.mem_cons_of_mem _ (ih h)

theorem mem_setS : ∀ {S : Store} {k v : Str} {kv : Str × Str},
    kv ∈ setS S k v → kv ∈ S ∨ kv = (k, v) := by
  intro S
  induction S with
  | nil =>
    intro k v kv h
    simp only [setS] at h
    exact Or.inr (List.mem_singleton.mp h)
  | cons kv2 rest ih =>
    intro k v kv h
    obtain ⟨k2, v2⟩ := kv2
    unfold setS at h
    by_cases hk : k2 = k
    · rw [if_pos hk] at h
      rcases List.mem_cons.mp h with rfl | h2
      · exact Or.inr rfl
      · exact Or.inl (List.mem_cons_of_mem _ h2)
    · rw [if_neg hk] at h
      rcases List.mem_cons.mp h with rfl | h2
      · exact Or.inl (List.mem_cons_self _ _)
      · rcases ih h2 with h3 | h3
        · exact Or.inl (List.mem_cons_of_mem _ h3)
        · exact Or.inr h3

theorem allFormatted_setS {S : Store} {k v : Str} (hS : AllFormatted S)
    (hv : FormattedDoc v) : AllFormatted (setS S k v) := by
  intro kv hkv
  rcases mem_setS hkv with h | rfl
  · exact hS kv h
  · exact hv

theorem pyStrip_append_nl {A : Str} (h0 : A ≠ [])
    (hh : ∀ c, A.head? = some c → pySpace c = false)
    (hl : ∀ c, A.getLast? = some c → pySpace c = false) :
    pyStrip (A ++ ['\n']) = A := by
  have hstep1 : pyLstrip (A ++ ['\n']) = A ++ ['\n'] := by
    cases A with
    | nil => exact absurd rfl h0
    | cons a as =>
      have ha := hh a rfl
      show (a :: (as ++ ['\n'])).dropWhile pySpace = _
      rw [List.dropWhile_cons_of_neg (by simp [ha])]
      rfl
  unfold pyStrip
  rw [hstep1]
  unfold pyRstrip
  have hrev : (A ++ ['\n']).reverse = '\n' :: A.reverse := by
    rw [List.reverse_append]
    rfl
  rw [hrev, List.dropWhile_cons_of_pos (by decide)]
  cases hrevA : A.reverse with
  | nil => exact absurd (by simpa using congrArg List.reverse hrevA) h0
  | cons d ds =>
    have hd : pySpace d = false := by
      refine hl d ?_
      rw [← List.head?_reverse, hrevA]
      rfl
    rw [List.dropWhile_cons_of_neg (by simp [hd]), ← hrevA,
      List.reverse_reverse]

theorem linkLine_getLast (y : Str) : (linkLine y).getLast? = some ']' := by
  unfold linkLine
  rw [List.getLast?_append]
  rfl

theorem linksBlock_append (a b : List Str) :
    linksBlock (a ++ b) = linksBlock a ++ linksBlock b := by
  unfold linksBlock
  rw [List.map_append, List.flatten_append]

theorem tmpl_snoc (n h : Str) (ls : List Str) (x : Str) :
    tmpl n h (ls ++ [x]) = tmpl n h ls ++ (linkLine x ++ ['\n']) := by
  unfold tmpl
  rw [linksBlock_append]
  show _ = _
  have hsingle : linksBlock [x] = linkLine x ++ ['\n'] := by
    unfold linksBlock linkLF
    simp
  rw [hsingle]
  simp [List.append_assoc]

theorem tmpl_decomp (n h : Str) (ls : List Str) (hh : IsHeader h) :
    ∃ A : Str, tmpl n h ls = A ++ ['\n'] ∧ A ≠ [] ∧
      (∀ c, A.head? = some c → pySpace c = false) ∧
      (∀ c, A.getLast? = some c → pySpace c = false) := by
  rcases List.eq_nil_or_concat ls with rfl | ⟨ls2, y, rfl⟩
  · refine ⟨toL "# " ++ n ++ toL "\n\n" ++ h, ?_, ?_, ?_, ?_⟩
    · unfold tmpl
      have hlb : linksBlock [] = [] := rfl
      rw [hlb]
      simp [List.append_assoc]
    · simp [toL]
    · intro c hc
      rw [List.append_assoc, List.append_assoc, List.head?_append] at hc
      have : some '#' = some c := by
        rw [← hc]
        rfl
      cases this
      decide
    · intro c hc
      rw [List.getLast?_append] at hc
      rcases hh with rfl | rfl | rfl <;>
        (have : some ':' = some c := by rw [← hc]; rfl) <;> cases this <;>
        decide
  · rw [List.concat_eq_append]
    refine ⟨(toL "# " ++ n ++ toL "\n\n" ++
      (h ++ '\n' :: linksBlock ls2)) ++ linkLine y, ?_, ?_, ?_, ?_⟩
    · rw [tmpl_snoc]
      unfold tmpl
      simp [List.append_assoc]
    · simp [toL]
    · intro c hc
      rw [List.head?_append, List.append_assoc, List.append_assoc,
        List.head?_append] at hc
      have : some '#' = some c := by
        rw [← hc]
        rfl
      cases this
      decide
    · intro c hc
      rw [List.getLast?_append, linkLine_getLast] at hc
      have : some ']' = some c := by
        rw [← hc]
        rfl
      cases this
      decide

theorem tmpl_strip_append (n h x : Str) (ls : List Str) (hh : IsHeader h) :
    pyStrip (tmpl n h ls) ++ '\n' :: (linkLine x ++ ['\n']) =
      tmpl n h (ls ++ [x]) := by
  obtain ⟨A, hA, h0, hhd, hlst⟩ := tmpl_decomp n h ls hh
  rw [hA, pyStrip_append_nl h0 hhd hlst, tmpl_snoc, hA]
  simp [List.append_assoc]

theorem projInit_eq_tmpl (p top : Str) :
    projInit p top = tmpl p (toL "Sections:") [top] := by
  unfold projInit tmpl linksBlock linkLF
  have h1 : toL "\n\nSections:\n" =
      toL "\n\n" ++ (toL "Sections:" ++ ['\n']) := by decide
  rw [h1]
  simp [List.append_assoc]

theorem midInit_eq_tmpl (name : Str) :
    midInit name = tmpl name (toL "Subsections and notes:") [] := by
  unfold midInit tmpl linksBlock
  have h1 : toL "\n\nSubsections and notes:\n" =
      toL "\n\n" ++ (toL "Subsections and notes:" ++ ['\n']) := by decide
  rw [h1]
  simp [List.append_assoc]

theorem leafInit_eq_tmpl (name : Str) :
    leafInit name = tmpl name (toL "Notes in this section:") [] := by
  unfold leafInit tmpl linksBlock
  have h1 : toL "\n\nNotes in this section:\n" =
      toL "\n\n" ++ (toL "Notes in this section:" ++ ['\n']) := by decide
  rw [h1]
  simp [List.append_assoc]

theorem noteInit_eq_tmpl (disp title : Str) :
    noteInit disp title = tmpl disp (toL "Notes in this section:") [title] := by
  unfold noteInit tmpl linksBlock linkLF
  have h1 : toL "\n\nNotes in this section:\n" =
      toL "\n\n" ++ (toL "Notes in this section:" ++ ['\n']) := by decide
  rw [h1]
  simp [List.append_assoc]

theorem formatted_projInit (p top : Str) : FormattedDoc (projInit p top) :=
  ⟨p, toL "Sections:", [top], Or.inl rfl, projInit_eq_tmpl p top⟩

theorem formatted_midInit (name : Str) : FormattedDoc (midInit name) :=
  ⟨name, toL "Subsections and notes:", [], Or.inr (Or.inl rfl),
    midInit_eq_tmpl name⟩

theorem formatted_leafInit (name : Str) : FormattedDoc (leafInit name) :=
  ⟨name, toL "Notes in this section:", [], Or.inr (Or.inr rfl),
    leafInit_eq_tmpl name⟩

theorem formatted_noteInit (disp title : Str) :
    FormattedDoc (noteInit disp title) :=
  ⟨disp, toL "Notes in this section:", [title], Or.inr (Or.inr rfl),
    noteInit_eq_tmpl disp title⟩

/-- Appending a link line to a well-formed document (the way every
read-modify-write in storage.py does, via `current.strip()`) yields a
well-formed document with one more link. -/
theorem formatted_append {cur x : Str} (hc : FormattedDoc cur) :
    FormattedDoc (pyStrip cur ++ '\n' :: (linkLine x ++ ['\n'])) := by
  obtain ⟨name, hdr, ls, hh, rfl⟩ := hc
  exact ⟨name, hdr, ls ++ [x], hh, tmpl_strip_append name hdr x ls hh⟩

theorem allFormatted_createIfAbsent {S : Store} {k v : Str}
    (hS : AllFormatted S) (hv : FormattedDoc v) :
    AllFormatted (createIfAbsent S k v) := by
  unfold createIfAbsent
  cases hl : lookupS S k with
  | none => exact allFormatted_setS hS hv
  | some cur => exact hS

theorem allFormatted_appendIfNoInfix {S : Store} {k : Str} (x : Str)
    (hS : AllFormatted S) :
    AllFormatted (appendIfNoInfix S k (linkLine x)) := by
  unfold appendIfNoInfix
  cases hl : lookupS S k with
  | none => exact hS
  | some cur =>
    show AllFormatted (if linkLine x <:+: cur then S
      else setS S k (pyStrip cur ++ '\n' :: (linkLine x ++ ['\n'])))
    by_cases hi : linkLine x <:+: cur
    · rw [if_pos hi]; exact hS
    · rw [if_neg hi]
      exact allFormatted_setS hS
        (formatted_append (hS (k, cur) (lookupS_mem hl)))

theorem allFormatted_upsertProjIdx {S : Store} {k init : Str} (x : Str)
    (hS : AllFormatted S) (hinit : FormattedDoc init) :
    AllFormatted (upsertProjIdx S k init (linkLine x)) := by
  unfold upsertProjIdx
  cases hl : lookupS S k with
  | none => exact allFormatted_setS hS hinit
  | some cur =>
    show AllFormatted (if linkLine x <:+: cur then S
      else setS S k (pyStrip cur ++ '\n' :: (linkLine x ++ ['\n'])))
    by_cases hi : linkLine x <:+: cur
    · rw [if_pos hi]; exact hS
    · rw [if_neg hi]
      exact allFormatted_setS hS
        (formatted_append (hS (k, cur) (lookupS_mem hl)))

theorem allFormatted_upsertNoteIdx {S : Store} {k init : Str} (x : Str)
    (hS : AllFormatted S) (hinit : FormattedDoc init) :
    AllFormatted (upsertNoteIdx S k init (linkLine x)) := by
  unfold upsertNoteIdx
  cases hl : lookupS S k with
  | none => exact allFormatted_setS hS hinit
  | some cur =>
    show AllFormatted (if linkLine x ∈ pySplitlines cur then S
      else setS S k (pyStrip cur ++ '\n' :: (linkLine x ++ ['\n'])))
    by_cases hi : linkLine x ∈ pySplitlines cur
    · rw [if_pos hi]; exact hS
    · rw [if_neg hi]
      exact allFormatted_setS hS
        (formatted_append (hS (k, cur) (lookupS_mem hl)))

theorem allFormatted_ensureLoop (project : Str) :
    ∀ (rest rawAcc : List Str) {S : Store}, AllFormatted S →
      AllFormatted (ensureLoop project rawAcc rest S) := by
  intro rest
  induction rest with
  | nil => intro rawAcc S hS; exact hS
  | cons p rest2 ih =>
    intro rawAcc S hS
    rw [ensureLoop_cons]
    cases rest2 with
    | nil =>
      exact ih _ (allFormatted_createIfAbsent hS (formatted_leafInit p))
    | cons nxt r3 =>
      exact ih _ (allFormatted_appendIfNoInfix nxt
        (allFormatted_createIfAbsent hS (formatted_midInit p)))

/-- C4 (amended): every document the index maintainer writes is a
`# <raw display name>` header line, a blank line, a section-header line,
and `- [[<name>]]` link lines — but the section-header line is
`Sections:` only at the project level; intermediate non-leaf levels use
`Subsections and notes:`, and leaf levels use `Notes in this section:`.
Formally: a full maintenance pass preserves the invariant that every
stored document matches that template with one of the three headers. -/
theorem index_docs_formatted (S : Store) (project sec title : Str)
    (hS : AllFormatted S) :
    AllFormatted (runOnce S project sec title) := by
  have hens : AllFormatted (ensure_index_files S project sec) := by
    unfold ensure_index_files
    cases hp : pyParts sec with
    | nil => exact hS
    | cons top rest =>
      exact allFormatted_ensureLoop project (top :: rest) []
        (allFormatted_upsertProjIdx top hS (formatted_projInit project top))
  unfold runOnce update_section_index
  exact allFormatted_upsertNoteIdx title hens (formatted_noteInit _ title)

/-- C4 counterexample: for project `p`, section `a/b`, the intermediate
(non-leaf) index document at `notes/p/a/_index.md` has the header line
`Subsections and notes:`, not the `Sections:` header the claim requires
for every non-leaf level. -/
theorem index_docs_formatted_counterexample :
    lookupS (ensure_index_files [] (toL "p") (toL "a/b"))
        (_index_path (toL "p") (toL "a")) =
      some (toL "# a\n\nSubsections and notes:\n- [[b]]\n") ∧
    ¬ (toL "Sections:" <:+:
        toL "# a\n\nSubsections and notes:\n- [[b]]\n") := by
  exact ⟨by decide, by decide⟩

/-- Witness for the amended C4 theorem: from the empty store (trivially
all-formatted), a full pass yields an all-formatted store. -/
theorem index_docs_formatted_witness :
    AllFormatted (runOnce [] (toL "p") (toL "a/b") (toL "T")) :=
  index_docs_formatted [] (toL "p") (toL "a/b") (toL "T")
    (fun kv hkv => absurd hkv (List.not_mem_nil kv))
